import Mathlib

/-!
Verification of the GHMonaco browser extension against its specification.

The development shallowly embeds the TypeScript sources:
- `LanguageDetector` embeds the filename → language-id mapping
  (`detectLanguage`, `EXTENSION_MAP`, `FILENAME_MAP`).
- `GithubApi` embeds the cookie-based API client `src/content/github-api.ts`;
  `AltApi` embeds the token-scraping variant of the same client.
- `Injector` embeds the Monaco injection lifecycle
  (`hideElement`, `injectMonacoEditor`, `disposeMonacoEditor`,
  `tryInjectEditor`, `cleanup`, `enableCommitButton`).
- `Hijack` embeds the bounded commit-button polling loop of
  `commit-hijack.ts`.
- `Codec` embeds the base64 (`btoa`/`atob`) and UTF-8
  (`encodeURIComponent`/`unescape` and `escape`/`decodeURIComponent`)
  pipelines used when committing and reading file content.
-/

namespace LanguageDetector

/-- Extension suffix table, transcribed entry by entry from `EXTENSION_MAP`
in the language-detector source. -/
def EXTENSION_MAP : List (String × String) := [
  (("js"), ("javascript")),
  (("jsx"), ("javascript")),
  (("mjs"), ("javascript")),
  (("cjs"), ("javascript")),
  (("ts"), ("typescript")),
  (("tsx"), ("typescript")),
  (("mts"), ("typescript")),
  (("cts"), ("typescript")),
  (("html"), ("html")),
  (("htm"), ("html")),
  (("xhtml"), ("html")),
  (("vue"), ("html")),
  (("svelte"), ("html")),
  (("css"), ("css")),
  (("scss"), ("scss")),
  (("less"), ("less")),
  (("json"), ("json")),
  (("jsonc"), ("json")),
  (("json5"), ("json")),
  (("yaml"), ("yaml")),
  (("yml"), ("yaml")),
  (("toml"), ("ini")),
  (("ini"), ("ini")),
  (("xml"), ("xml")),
  (("svg"), ("xml")),
  (("py"), ("python")),
  (("pyw"), ("python")),
  (("rb"), ("ruby")),
  (("rake"), ("ruby")),
  (("gemspec"), ("ruby")),
  (("pl"), ("perl")),
  (("pm"), ("perl")),
  (("lua"), ("lua")),
  (("php"), ("php")),
  (("sh"), ("shell")),
  (("bash"), ("shell")),
  (("zsh"), ("shell")),
  (("fish"), ("shell")),
  (("ps1"), ("powershell")),
  (("psm1"), ("powershell")),
  (("bat"), ("bat")),
  (("cmd"), ("bat")),
  (("c"), ("c")),
  (("h"), ("c")),
  (("cpp"), ("cpp")),
  (("cxx"), ("cpp")),
  (("cc"), ("cpp")),
  (("hpp"), ("cpp")),
  (("hxx"), ("cpp")),
  (("cs"), ("csharp")),
  (("java"), ("java")),
  (("kt"), ("kotlin")),
  (("kts"), ("kotlin")),
  (("go"), ("go")),
  (("rs"), ("rust")),
  (("swift"), ("swift")),
  (("m"), ("objective-c")),
  (("mm"), ("objective-c")),
  (("scala"), ("scala")),
  (("dart"), ("dart")),
  (("r"), ("r")),
  (("R"), ("r")),
  (("hs"), ("haskell")),
  (("ex"), ("elixir")),
  (("exs"), ("elixir")),
  (("erl"), ("erlang")),
  (("clj"), ("clojure")),
  (("cljs"), ("clojure")),
  (("fs"), ("fsharp")),
  (("fsx"), ("fsharp")),
  (("md"), ("markdown")),
  (("mdx"), ("markdown")),
  (("markdown"), ("markdown")),
  (("rst"), ("restructuredtext")),
  (("tex"), ("latex")),
  (("latex"), ("latex")),
  (("sql"), ("sql")),
  (("mysql"), ("sql")),
  (("pgsql"), ("sql")),
  (("dockerfile"), ("dockerfile")),
  (("tf"), ("hcl")),
  (("hcl"), ("hcl")),
  (("graphql"), ("graphql")),
  (("gql"), ("graphql")),
  (("proto"), ("protobuf")),
  (("diff"), ("diff")),
  (("patch"), ("diff")),
  (("csv"), ("plaintext")),
  (("txt"), ("plaintext")),
  (("log"), ("plaintext"))]

/-- Exact-filename table, transcribed entry by entry from `FILENAME_MAP`
in the language-detector source. -/
def FILENAME_MAP : List (String × String) := [
  (("Dockerfile"), ("dockerfile")),
  (("Dockerfile.dev"), ("dockerfile")),
  (("Dockerfile.prod"), ("dockerfile")),
  (("Makefile"), ("makefile")),
  (("GNUmakefile"), ("makefile")),
  (("Rakefile"), ("ruby")),
  (("Gemfile"), ("ruby")),
  (("Vagrantfile"), ("ruby")),
  (("Brewfile"), ("ruby")),
  (("Jenkinsfile"), ("groovy")),
  (("Cakefile"), ("coffeescript")),
  ((".gitignore"), ("ini")),
  ((".gitattributes"), ("ini")),
  ((".editorconfig"), ("ini")),
  ((".env"), ("shell")),
  ((".env.local"), ("shell")),
  ((".env.development"), ("shell")),
  ((".env.production"), ("shell")),
  ((".babelrc"), ("json")),
  ((".eslintrc"), ("json")),
  ((".prettierrc"), ("json")),
  (("tsconfig.json"), ("json")),
  (("package.json"), ("json")),
  (("package-lock.json"), ("json")),
  (("composer.json"), ("json")),
  (("Cargo.toml"), ("ini")),
  (("Cargo.lock"), ("ini")),
  (("go.mod"), ("go")),
  (("go.sum"), ("plaintext"))]

/-- Splitting of a character list at every occurrence of a separator,
with the semantics of the JS `String.prototype.split` on a one-character
separator: the empty string yields one empty segment, and adjacent
separators yield empty segments. -/
def splitOnChar (sep : Char) : List Char → List (List Char)
  | [] => [[]]
  | c :: cs =>
    match splitOnChar sep cs with
    | [] => [[]]
    | p :: ps => if c = sep then [] :: p :: ps else (c :: p) :: ps

/-- Boolean test that the first list is a leading segment of the second,
with the semantics of the JS `String.prototype.startsWith`. -/
def leadChars : List Char → List Char → Bool
  | [], _ => true
  | _ :: _, [] => false
  | p :: ps, c :: cs => p = c && leadChars ps cs

/-- Basename of a path, as computed by `filename.split(sep).pop() || filename`
in `detectLanguage`: last `/`-separated segment, falling back to the whole
filename when that segment is empty (the JS `||` on the empty string). -/
def basenameOf (f : String) : String :=
  let b : String := ⟨(splitOnChar '/' f.data).getLastD []⟩
  if b = ("") then f else b

/-- Lowercased extension of a basename, as computed by
`basename.lastIndexOf period` / `basename.slice(dotIndex + 1).toLowerCase()`:
`none` when the basename contains no dot, otherwise the lowercased text after
the last dot (possibly empty). -/
def lastExt (b : String) : Option String :=
  let parts := splitOnChar '.' b.data
  if parts.length ≥ 2 then some ⟨(parts.getLastD []).map Char.toLower⟩ else none

/-- Language-id inference, transcribed from `detectLanguage`: empty filename
is plaintext; then the exact filename, then the basename, are looked up in
`FILENAME_MAP`; then basenames starting with Dockerfile map to dockerfile;
then the lowercased extension is looked up in `EXTENSION_MAP` with default
plaintext; names without a dot are plaintext. -/
def detectLanguage (filename : String) : String :=
  if filename = ("") then ("plaintext")
  else
    match FILENAME_MAP.lookup filename with
    | some t => t
    | none =>
      let b := basenameOf filename
      match FILENAME_MAP.lookup b with
      | some t => t
      | none =>
        if leadChars (("Dockerfile") : String).data b.data then ("dockerfile")
        else
          match lastExt b with
          | some e =>
            match EXTENSION_MAP.lookup e with
            | some t => t
            | none => ("plaintext")
          | none => ("plaintext")

end LanguageDetector

section LanguageTheorems

open LanguageDetector

/-- C2 (counterexample): the basename of `Dockerfile.txt` has lowercased
extension `txt`, a key of the extension table documented as `plaintext`,
yet `detectLanguage` returns `dockerfile` (the Dockerfile-name branch runs
before the extension lookup), so the claim that every filename whose
extension is a key of the table gets that table's tag is false. -/
theorem detectLanguage_ext_counterexample :
    lastExt (basenameOf ("Dockerfile.txt")) = some ("txt") ∧
    EXTENSION_MAP.lookup ("txt") = some ("plaintext") ∧
    detectLanguage ("Dockerfile.txt") = ("dockerfile") ∧
    (("dockerfile") : String) ≠ ("plaintext") := by
  refine ⟨by decide, by decide, by decide, by decide⟩

/-- C2 (amended): for every filename that is not itself a key of the
exact-filename table, whose basename is not a key of that table, and whose
basename does not start with `Dockerfile`, `detectLanguage` returns the
extension table's tag for the basename's lowercased extension when that
extension is a key of the table, and the default tag `plaintext` otherwise;
in particular `detectLanguage` maps `Dockerfile` to `dockerfile`, `app.tsx`
to `typescript` and `notes.unknownext` to `plaintext`. -/
theorem detectLanguage_extension_amended :
    (∀ f : String, FILENAME_MAP.lookup f = none →
      FILENAME_MAP.lookup (basenameOf f) = none →
      leadChars (("Dockerfile") : String).data (basenameOf f).data = false →
      detectLanguage f =
        (match lastExt (basenameOf f) with
         | some e => (EXTENSION_MAP.lookup e).getD ("plaintext")
         | none => ("plaintext"))) ∧
    detectLanguage ("Dockerfile") = ("dockerfile") ∧
    detectLanguage ("app.tsx") = ("typescript") ∧
    detectLanguage ("notes.unknownext") = ("plaintext") := by
  refine ⟨?_, by decide, by decide, by decide⟩
  intro f h1 h2 h3
  by_cases hf : f = ("")
  · subst hf; decide
  · simp only [detectLanguage, if_neg hf, h1, h2, h3, Bool.false_eq_true, if_false]
    cases hle : lastExt (basenameOf f) with
    | none => rfl
    | some e => cases hlk : EXTENSION_MAP.lookup e <;> simp [hlk]

/-- C2 (witness for the amended claim): instantiating the amended claim at
the concrete filenames `notes.unknownext` (extension not in the table) and
`main.rs` (extension in the table). -/
theorem detectLanguage_extension_amended_witness :
    detectLanguage ("notes.unknownext") = ("plaintext") ∧
    detectLanguage ("main.rs") = ("rust") := by
  constructor
  · have h := detectLanguage_extension_amended.1 ("notes.unknownext")
      (by decide) (by decide) (by decide)
    rw [h]; decide
  · have h := detectLanguage_extension_amended.1 ("main.rs")
      (by decide) (by decide) (by decide)
    rw [h]; decide

/-- C3: whenever the filename itself is a key of the exact-filename table,
or its basename is, `detectLanguage` returns the exact-filename table's tag,
regardless of the extension table; in particular `go.mod` yields `go` even
though `mod` has no extension-table entry. -/
theorem detectLanguage_filename_precedence :
    (∀ f t : String, FILENAME_MAP.lookup f = some t → detectLanguage f = t) ∧
    (∀ f t : String, FILENAME_MAP.lookup f = none →
      FILENAME_MAP.lookup (basenameOf f) = some t → detectLanguage f = t) ∧
    detectLanguage ("go.mod") = ("go") ∧
    EXTENSION_MAP.lookup ("mod") = none := by
  refine ⟨?_, ?_, by decide, by decide⟩
  · intro f t h
    have hf : ¬(f = ("")) := by
      intro he
      rw [he, show FILENAME_MAP.lookup ("") = none from by decide] at h
      exact Option.noConfusion h
    simp only [detectLanguage, if_neg hf, h]
  · intro f t h1 h2
    have hf : ¬(f = ("")) := by
      intro he
      rw [he] at h2
      rw [show basenameOf ("") = ("") from by decide,
        show FILENAME_MAP.lookup ("") = none from by decide] at h2
      exact Option.noConfusion h2
    simp only [detectLanguage, if_neg hf, h1, h2]

/-- C3 (witness): instantiating the precedence claim at `Makefile` (exact
filename key) and `src/go.mod` (basename key behind a path segment). -/
theorem detectLanguage_filename_precedence_witness :
    detectLanguage ("Makefile") = ("makefile") ∧
    detectLanguage ("src/go.mod") = ("go") :=
  ⟨detectLanguage_filename_precedence.1 ("Makefile") ("makefile") (by decide),
   detectLanguage_filename_precedence.2.1 ("src/go.mod") ("go") (by decide) (by decide)⟩

end LanguageTheorems

namespace Codec

/-- Alphabet of standard base64 (RFC 4648), the encoding implemented by the
browser builtins `btoa` and `atob` used by the API client. -/
def b64Alphabet : List Char :=
  (("ABCDEFGHIJKLMNOPQRSTUVWXYZabcdefghijklmnopqrstuvwxyz0123456789+/") : String).data

/-- Character of the base64 alphabet at a 6-bit index. -/
def b64Char (n : Nat) : Char :=
  match b64Alphabet.get? n with
  | some c => c
  | none => 'A'

/-- Index of a character in the base64 alphabet, `none` for characters
outside the alphabet. -/
def b64Index (c : Char) : Option Nat :=
  b64Alphabet.findIdx? (fun x => x == c)

/-- Base64 encoding of a byte sequence with `=` padding, the semantics of
`btoa` applied to a string of char codes below 256. -/
def base64Encode : List Nat → List Char
  | [] => []
  | [a] => [b64Char (a / 4), b64Char (a % 4 * 16), '=', '=']
  | [a, b] => [b64Char (a / 4), b64Char (a % 4 * 16 + b / 16), b64Char (b % 16 * 4), '=']
  | a :: b :: c :: rest =>
    b64Char (a / 4) :: b64Char (a % 4 * 16 + b / 16) ::
      b64Char (b % 16 * 4 + c / 64) :: b64Char (c % 64) :: base64Encode rest

/-- Base64 encoding without the trailing padding characters. -/
def encodeNoPad : List Nat → List Char
  | [] => []
  | [a] => [b64Char (a / 4), b64Char (a % 4 * 16)]
  | [a, b] => [b64Char (a / 4), b64Char (a % 4 * 16 + b / 16), b64Char (b % 16 * 4)]
  | a :: b :: c :: rest =>
    b64Char (a / 4) :: b64Char (a % 4 * 16 + b / 16) ::
      b64Char (b % 16 * 4 + c / 64) :: b64Char (c % 64) :: encodeNoPad rest

/-- Padding characters appended by `base64Encode` for a given byte list. -/
def padChars : List Nat → List Char
  | [] => []
  | [_] => ['=', '=']
  | [_, _] => ['=']
  | _ :: _ :: _ :: rest => padChars rest

/-- Removal of at most two trailing `=` characters, the first step of the
forgiving-base64 decode implemented by `atob`. -/
def stripPad (cs : List Char) : List Char :=
  match cs.reverse with
  | '=' :: '=' :: r => r.reverse
  | '=' :: r => r.reverse
  | _ => cs

/-- Chunkwise base64 decoding after padding removal: groups of four
alphabet characters yield three bytes, a trailing group of two or three
characters yields one or two bytes with the leftover bits discarded, and any
other shape (including remaining `=`) is an error, as in forgiving-base64. -/
def decodeChunks : List Char → Option (List Nat)
  | [] => some []
  | [c1, c2] =>
    match b64Index c1, b64Index c2 with
    | some a, some b => some [a * 4 + b / 16]
    | _, _ => none
  | [c1, c2, c3] =>
    match b64Index c1, b64Index c2, b64Index c3 with
    | some a, some b, some c => some [a * 4 + b / 16, b % 16 * 16 + c / 4]
    | _, _, _ => none
  | c1 :: c2 :: c3 :: c4 :: rest =>
    match b64Index c1, b64Index c2, b64Index c3, b64Index c4, decodeChunks rest with
    | some a, some b, some c, some d, some bs =>
      some ((a * 4 + b / 16) :: (b % 16 * 16 + c / 4) :: (c % 4 * 64 + d) :: bs)
    | _, _, _, _, _ => none
  | _ => none

/-- Base64 decoding, the semantics of `atob`: strip up to two trailing
padding characters, then decode chunkwise. -/
def base64Decode (cs : List Char) : Option (List Nat) :=
  decodeChunks (stripPad cs)

/-- UTF-8 encoding of a Unicode scalar value, the byte sequence produced by
`unescape(encodeURIComponent(s))` for each character of `s`. -/
def utf8EncodeChar (n : Nat) : List Nat :=
  if n < 0x80 then [n]
  else if n < 0x800 then [0xC0 + n / 64, 0x80 + n % 64]
  else if n < 0x10000 then [0xE0 + n / 4096, 0x80 + n / 64 % 64, 0x80 + n % 64]
  else [0xF0 + n / 0x40000, 0x80 + n / 4096 % 64, 0x80 + n / 64 % 64, 0x80 + n % 64]

/-- UTF-8 encoding of a character list. -/
def utf8EncodeList : List Char → List Nat
  | [] => []
  | c :: cs => utf8EncodeChar c.toNat ++ utf8EncodeList cs

/-- UTF-8 encoding of a string, the byte sequence
`unescape(encodeURIComponent(s))` in the commit path. -/
def utf8Encode (s : String) : List Nat :=
  utf8EncodeList s.data

/-- Test for a UTF-8 continuation byte. -/
def isCont (b : Nat) : Bool :=
  decide (0x80 ≤ b ∧ b < 0xC0)

/-- Decoding of a single UTF-8 sequence at the head of a byte string,
returning the scalar value and the remaining bytes. Following the strict
decoder behind `decodeURIComponent(escape(t))`, it rejects truncated
sequences, stray continuation bytes, overlong encodings, surrogate code
points and values above `0x10FFFF`. -/
def utf8DecodeOne : List Nat → Option (Nat × List Nat)
  | [] => none
  | b :: rest =>
    if b < 0x80 then some (b, rest)
    else if b < 0xC2 then none
    else if b < 0xE0 then
      match rest with
      | b1 :: rest2 =>
        if isCont b1 then some ((b - 0xC0) * 64 + (b1 - 0x80), rest2) else none
      | [] => none
    else if b < 0xF0 then
      match rest with
      | b1 :: b2 :: rest3 =>
        if isCont b1 && isCont b2 then
          if (b - 0xE0) * 4096 + (b1 - 0x80) * 64 + (b2 - 0x80) < 0x800 then none
          else if 0xD800 ≤ (b - 0xE0) * 4096 + (b1 - 0x80) * 64 + (b2 - 0x80) ∧
              (b - 0xE0) * 4096 + (b1 - 0x80) * 64 + (b2 - 0x80) < 0xE000 then none
          else some ((b - 0xE0) * 4096 + (b1 - 0x80) * 64 + (b2 - 0x80), rest3)
        else none
      | _ => none
    else if b < 0xF5 then
      match rest with
      | b1 :: b2 :: b3 :: rest4 =>
        if isCont b1 && isCont b2 && isCont b3 then
          if (b - 0xF0) * 0x40000 + (b1 - 0x80) * 4096 + (b2 - 0x80) * 64 + (b3 - 0x80) <
              0x10000 then none
          else if 0x110000 ≤
              (b - 0xF0) * 0x40000 + (b1 - 0x80) * 4096 + (b2 - 0x80) * 64 + (b3 - 0x80) then none
          else some ((b - 0xF0) * 0x40000 + (b1 - 0x80) * 4096 + (b2 - 0x80) * 64 + (b3 - 0x80),
            rest4)
        else none
      | _ => none
    else none

/-- Iterated UTF-8 decoding with explicit fuel; one unit of fuel is spent
per decoded character, and each character consumes at least one byte, so
fuel equal to the byte count always suffices. -/
def utf8DecodeAux : Nat → List Nat → Option (List Char)
  | _, [] => some []
  | 0, _ :: _ => none
  | fuel + 1, b :: rest =>
    match utf8DecodeOne (b :: rest) with
    | some (n, rest2) =>
      match utf8DecodeAux fuel rest2 with
      | some cs => some (Char.ofNat n :: cs)
      | none => none
    | none => none

/-- Strict UTF-8 decoding of a whole byte string, the semantics of
`decodeURIComponent(escape(t))`: `none` exactly when some sequence is
rejected. -/
def utf8Decode (bs : List Nat) : Option (List Char) :=
  utf8DecodeAux bs.length bs

/-- Removal of every newline character, the semantics of the
`content.replace` with a global newline pattern in `getFileContent`. -/
def stripNewlines (s : String) : String :=
  ⟨s.data.filter (fun c => !(c == '\n'))⟩

/-- Content encoding of `commitFile`:
`btoa(unescape(encodeURIComponent(content)))`. -/
def commitEncodeContent (s : String) : String :=
  ⟨base64Encode (utf8Encode s)⟩

/-- Content decoding of `getFileContent`:
`decodeURIComponent(escape(atob(data.content.replace(newlines, empty))))`,
`none` when either stage rejects its input. -/
def decodeBase64Utf8 (raw : String) : Option String :=
  match base64Decode (stripNewlines raw).data with
  | none => none
  | some bytes =>
    match utf8Decode bytes with
    | none => none
    | some cs => some ⟨cs⟩

theorem b64Index_b64Char : ∀ n < 64, b64Index (b64Char n) = some n := by decide

theorem b64Char_mem_or (n : Nat) : b64Char n ∈ b64Alphabet ∨ b64Char n = 'A' := by
  unfold b64Char
  cases h : b64Alphabet.get? n with
  | none => exact Or.inr rfl
  | some c => exact Or.inl (List.get?_mem h)

theorem b64Char_ne_pad (n : Nat) : ¬(b64Char n = '=') := by
  rcases b64Char_mem_or n with h | h
  · revert h
    have hall : ∀ c ∈ b64Alphabet, ¬(c = '=') := by decide
    intro h
    exact hall _ h
  · rw [h]; decide

theorem b64Char_ne_newline (n : Nat) : ¬(b64Char n = '\n') := by
  rcases b64Char_mem_or n with h | h
  · revert h
    have hall : ∀ c ∈ b64Alphabet, ¬(c = '\n') := by decide
    intro h
    exact hall _ h
  · rw [h]; decide

theorem base64Encode_eq_noPad (bs : List Nat) :
    base64Encode bs = encodeNoPad bs ++ padChars bs := by
  induction bs using encodeNoPad.induct with
  | case1 => rfl
  | case2 a => rfl
  | case3 a b => rfl
  | case4 a b c rest ih => simp [base64Encode, encodeNoPad, padChars, ih]

theorem encodeNoPad_mem (bs : List Nat) :
    ∀ x ∈ encodeNoPad bs, ∃ n, x = b64Char n := by
  induction bs using encodeNoPad.induct with
  | case1 => intro x hx; cases hx
  | case2 a =>
    intro x hx
    simp [encodeNoPad] at hx
    rcases hx with h | h <;> exact ⟨_, h⟩
  | case3 a b =>
    intro x hx
    simp [encodeNoPad] at hx
    rcases hx with h | h | h <;> exact ⟨_, h⟩
  | case4 a b c rest ih =>
    intro x hx
    simp only [encodeNoPad, List.mem_cons] at hx
    rcases hx with h | h | h | h | h
    · exact ⟨_, h⟩
    · exact ⟨_, h⟩
    · exact ⟨_, h⟩
    · exact ⟨_, h⟩
    · exact ih x h

theorem padChars_cases (bs : List Nat) :
    padChars bs = [] ∨ padChars bs = ['='] ∨ padChars bs = ['=', '='] := by
  induction bs using padChars.induct with
  | case1 => exact Or.inl rfl
  | case2 a => exact Or.inr (Or.inr rfl)
  | case3 a b => exact Or.inr (Or.inl rfl)
  | case4 a b c rest ih => simpa [padChars] using ih

theorem base64Encode_mem (bs : List Nat) :
    ∀ x ∈ base64Encode bs, (∃ n, x = b64Char n) ∨ x = '=' := by
  intro x hx
  rw [base64Encode_eq_noPad] at hx
  rcases List.mem_append.mp hx with h | h
  · exact Or.inl (encodeNoPad_mem bs x h)
  · rcases padChars_cases bs with hp | hp | hp <;> rw [hp] at h <;> simp_all

theorem stripPad_no_pad (x : List Char) (hx : ∀ c ∈ x, ¬(c = '=')) :
    stripPad x = x := by
  unfold stripPad
  cases hrev : x.reverse with
  | nil => rfl
  | cons h t =>
    have hmem : h ∈ x := by
      have : h ∈ x.reverse := by rw [hrev]; exact List.mem_cons_self _ _
      exact List.mem_reverse.mp this
    have hne : ¬(h = '=') := hx h hmem
    cases t with
    | nil => simp [hne]
    | cons h2 t2 => simp [hne]

theorem stripPad_one (x : List Char) (hx : ∀ c ∈ x, ¬(c = '=')) :
    stripPad (x ++ ['=']) = x := by
  unfold stripPad
  rw [List.reverse_append]
  cases hrev : x.reverse with
  | nil =>
    simp at hrev
    simp [hrev]
  | cons h t =>
    have hmem : h ∈ x := by
      have : h ∈ x.reverse := by rw [hrev]; exact List.mem_cons_self _ _
      exact List.mem_reverse.mp this
    have hne : ¬(h = '=') := hx h hmem
    simp only [List.reverse_singleton, List.singleton_append]
    split
    case h_1 r heq =>
      rw [List.cons.injEq, List.cons.injEq] at heq
      exact absurd heq.2.1 hne
    case h_2 r hno heq =>
      rw [List.cons.injEq] at heq
      rw [← heq.2, ← hrev, List.reverse_reverse]
    case h_3 hno1 hno2 =>
      exact absurd rfl (hno2 (h :: t))

theorem stripPad_two (x : List Char) :
    stripPad (x ++ ['=', '=']) = x := by
  unfold stripPad
  rw [List.reverse_append]
  simp

theorem decodeChunks_encodeNoPad (bs : List Nat) (hbs : ∀ x ∈ bs, x < 256) :
    decodeChunks (encodeNoPad bs) = some bs := by
  induction bs using encodeNoPad.induct with
  | case1 => rfl
  | case2 a =>
    have ha : a < 256 := hbs a (by simp)
    simp only [encodeNoPad, decodeChunks]
    rw [b64Index_b64Char (a / 4) (by omega), b64Index_b64Char (a % 4 * 16) (by omega)]
    simp only [Option.some.injEq, List.cons.injEq, and_true]
    omega
  | case3 a b =>
    have ha : a < 256 := hbs a (by simp)
    have hb : b < 256 := hbs b (by simp)
    simp only [encodeNoPad, decodeChunks]
    rw [b64Index_b64Char (a / 4) (by omega),
      b64Index_b64Char (a % 4 * 16 + b / 16) (by omega),
      b64Index_b64Char (b % 16 * 4) (by omega)]
    simp only [Option.some.injEq, List.cons.injEq, and_true]
    refine ⟨by omega, by omega⟩
  | case4 a b c rest ih =>
    have ha : a < 256 := hbs a (by simp)
    have hb : b < 256 := hbs b (by simp)
    have hc : c < 256 := hbs c (by simp)
    have hrest : ∀ x ∈ rest, x < 256 := by
      intro x hx
      exact hbs x (by simp [hx])
    simp only [encodeNoPad, decodeChunks]
    rw [b64Index_b64Char (a / 4) (by omega),
      b64Index_b64Char (a % 4 * 16 + b / 16) (by omega),
      b64Index_b64Char (b % 16 * 4 + c / 64) (by omega),
      b64Index_b64Char (c % 64) (by omega), ih hrest]
    simp only [Option.some.injEq, List.cons.injEq, and_true]
    refine ⟨by omega, by omega, by omega⟩

theorem base64_bytes_roundtrip (bs : List Nat) (hbs : ∀ x ∈ bs, x < 256) :
    base64Decode (base64Encode bs) = some bs := by
  have hnp : ∀ c ∈ encodeNoPad bs, ¬(c = '=') := by
    intro c hc
    rcases encodeNoPad_mem bs c hc with ⟨n, rfl⟩
    exact b64Char_ne_pad n
  unfold base64Decode
  rw [base64Encode_eq_noPad]
  have hstrip : stripPad (encodeNoPad bs ++ padChars bs) = encodeNoPad bs := by
    rcases padChars_cases bs with h | h | h <;> rw [h]
    · rw [List.append_nil]
      exact stripPad_no_pad _ hnp
    · exact stripPad_one _ hnp
    · exact stripPad_two _
  rw [hstrip]
  exact decodeChunks_encodeNoPad bs hbs

theorem utf8DecodeOne_length (bs : List Nat) (n : Nat) (r : List Nat)
    (h : utf8DecodeOne bs = some (n, r)) : r.length < bs.length := by
  match bs with
  | [] => simp [utf8DecodeOne] at h
  | b :: rest =>
    unfold utf8DecodeOne at h
    repeat' split at h
    all_goals try simp_all
    all_goals omega

theorem utf8DecodeAux_nil (f : Nat) : utf8DecodeAux f [] = some [] := by
  cases f <;> rfl

theorem utf8DecodeAux_congr : ∀ f1 : Nat, ∀ f2 : Nat, ∀ bs : List Nat,
    bs.length ≤ f1 → bs.length ≤ f2 → utf8DecodeAux f1 bs = utf8DecodeAux f2 bs := by
  intro f1
  induction f1 with
  | zero =>
    intro f2 bs h1 h2
    have hb : bs = [] := List.eq_nil_of_length_eq_zero (Nat.le_zero.mp h1)
    subst hb
    rw [utf8DecodeAux_nil, utf8DecodeAux_nil]
  | succ g1 ih =>
    intro f2 bs h1 h2
    cases bs with
    | nil => rw [utf8DecodeAux_nil, utf8DecodeAux_nil]
    | cons b rest =>
      cases f2 with
      | zero => simp at h2
      | succ g2 =>
        show (match utf8DecodeOne (b :: rest) with
          | some (n, rest2) =>
            match utf8DecodeAux g1 rest2 with
            | some cs => some (Char.ofNat n :: cs)
            | none => none
          | none => none) =
          (match utf8DecodeOne (b :: rest) with
          | some (n, rest2) =>
            match utf8DecodeAux g2 rest2 with
            | some cs => some (Char.ofNat n :: cs)
            | none => none
          | none => none)
        cases hone : utf8DecodeOne (b :: rest) with
        | none => rfl
        | some p =>
          obtain ⟨n, rest2⟩ := p
          have hlt := utf8DecodeOne_length _ _ _ hone
          simp only [List.length_cons] at hlt h1 h2
          dsimp only
          rw [ih g2 rest2 (by omega) (by omega)]

theorem utf8DecodeOne_encodeChar (n : Nat)
    (hv : n < 0xD800 ∨ (0xDFFF < n ∧ n < 0x110000)) (rest : List Nat) :
    utf8DecodeOne (utf8EncodeChar n ++ rest) = some (n, rest) := by
  by_cases h1 : n < 0x80
  · unfold utf8EncodeChar
    rw [if_pos h1]
    unfold utf8DecodeOne
    simp only [List.cons_append, List.nil_append]
    rw [if_pos h1]
  · by_cases h2 : n < 0x800
    · unfold utf8EncodeChar
      rw [if_neg h1, if_pos h2]
      unfold utf8DecodeOne
      simp only [List.cons_append, List.nil_append]
      have hc1 : isCont (0x80 + n % 64) = true := by
        simp only [isCont, decide_eq_true_eq]
        omega
      rw [if_neg (by omega), if_neg (by omega), if_pos (by omega), if_pos hc1]
      have hn : (0xC0 + n / 64 - 0xC0) * 64 + (0x80 + n % 64 - 0x80) = n := by omega
      rw [hn]
    · by_cases h3 : n < 0x10000
      · unfold utf8EncodeChar
        rw [if_neg h1, if_neg h2, if_pos h3]
        unfold utf8DecodeOne
        simp only [List.cons_append, List.nil_append]
        have hc1 : (isCont (0x80 + n / 64 % 64) && isCont (0x80 + n % 64)) = true := by
          simp only [isCont, Bool.and_eq_true, decide_eq_true_eq]
          refine ⟨⟨by omega, by omega⟩, by omega, by omega⟩
        rw [if_neg (by omega), if_neg (by omega), if_neg (by omega), if_pos (by omega),
          if_pos hc1]
        have hn : (0xE0 + n / 4096 - 0xE0) * 4096 + (0x80 + n / 64 % 64 - 0x80) * 64 +
            (0x80 + n % 64 - 0x80) = n := by omega
        rw [hn]
        rw [if_neg (by omega), if_neg (by omega)]
      · unfold utf8EncodeChar
        rw [if_neg h1, if_neg h2, if_neg h3]
        unfold utf8DecodeOne
        simp only [List.cons_append, List.nil_append]
        have hc1 : (isCont (0x80 + n / 4096 % 64) && isCont (0x80 + n / 64 % 64) &&
            isCont (0x80 + n % 64)) = true := by
          simp only [isCont, Bool.and_eq_true, decide_eq_true_eq]
          refine ⟨⟨⟨by omega, by omega⟩, by omega, by omega⟩, by omega, by omega⟩
        rw [if_neg (by omega), if_neg (by omega), if_neg (by omega), if_neg (by omega),
          if_pos (by omega), if_pos hc1]
        have hn : (0xF0 + n / 0x40000 - 0xF0) * 0x40000 + (0x80 + n / 4096 % 64 - 0x80) * 4096 +
            (0x80 + n / 64 % 64 - 0x80) * 64 + (0x80 + n % 64 - 0x80) = n := by omega
        rw [hn]
        rw [if_neg (by omega), if_neg (by omega)]

theorem utf8EncodeChar_length_pos (n : Nat) : 1 ≤ (utf8EncodeChar n).length := by
  unfold utf8EncodeChar
  split_ifs <;> simp

theorem utf8Decode_encodeChar (n : Nat)
    (hv : n < 0xD800 ∨ (0xDFFF < n ∧ n < 0x110000)) (rest : List Nat) :
    utf8Decode (utf8EncodeChar n ++ rest) =
      match utf8Decode rest with
      | some cs => some (Char.ofNat n :: cs)
      | none => none := by
  have hone := utf8DecodeOne_encodeChar n hv rest
  have hlen1 := utf8EncodeChar_length_pos n
  cases henc : utf8EncodeChar n with
  | nil => rw [henc] at hlen1; simp at hlen1
  | cons b tail =>
    rw [henc] at hone
    unfold utf8Decode
    simp only [List.cons_append, List.length_cons, List.length_append]
    show (match utf8DecodeOne (b :: (tail ++ rest)) with
      | some (n, rest2) =>
        match utf8DecodeAux (tail.length + rest.length) rest2 with
        | some cs => some (Char.ofNat n :: cs)
        | none => none
      | none => none) = _
    rw [show b :: (tail ++ rest) = (b :: tail) ++ rest from rfl, hone]
    dsimp only
    rw [utf8DecodeAux_congr (tail.length + rest.length) rest.length rest
      (by omega) (by omega)]

theorem charValid (c : Char) :
    c.toNat < 0xD800 ∨ (0xDFFF < c.toNat ∧ c.toNat < 0x110000) := by
  rcases c.valid with h | ⟨h1, h2⟩
  · exact Or.inl (by simpa [UInt32.lt_def, BitVec.lt_def, Char.toNat, UInt32.toNat] using h)
  · refine Or.inr ⟨?_, ?_⟩
    · simpa [UInt32.lt_def, BitVec.lt_def, Char.toNat, UInt32.toNat] using h1
    · simpa [UInt32.lt_def, BitVec.lt_def, Char.toNat, UInt32.toNat] using h2

theorem utf8Decode_encodeList (cs : List Char) :
    utf8Decode (utf8EncodeList cs) = some cs := by
  induction cs with
  | nil => rfl
  | cons c rest ih =>
    show utf8Decode (utf8EncodeChar c.toNat ++ utf8EncodeList rest) = _
    rw [utf8Decode_encodeChar c.toNat (charValid c) (utf8EncodeList rest), ih]
    rw [Char.ofNat_toNat]

theorem utf8EncodeChar_lt_256 (n : Nat) (hn : n < 0x110000) :
    ∀ x ∈ utf8EncodeChar n, x < 256 := by
  intro x hx
  unfold utf8EncodeChar at hx
  split_ifs at hx <;> simp at hx <;> omega

theorem utf8EncodeList_lt_256 (cs : List Char) :
    ∀ x ∈ utf8EncodeList cs, x < 256 := by
  induction cs with
  | nil => intro x hx; cases hx
  | cons c rest ih =>
    intro x hx
    simp only [utf8EncodeList, List.mem_append] at hx
    rcases hx with h | h
    · have hv := charValid c
      exact utf8EncodeChar_lt_256 c.toNat (by omega) x h
    · exact ih x h

end Codec

section CodecTheorems

open Codec

/-- C10: the base64 encoding used by `commitFile` and the base64 decoding
used by `getFileContent` are mutually inverse: for every Unicode string `s`,
decoding with `decodeURIComponent(escape(atob(t)))` the encoding
`btoa(unescape(encodeURIComponent(s)))` returns exactly `s`, so content
committed through `commitFile` and re-read through `getFileContent`
round-trips exactly when the server returns the stored bytes. -/
theorem base64_utf8_roundtrip (s : String) :
    decodeBase64Utf8 (commitEncodeContent s) = some s := by
  unfold decodeBase64Utf8 commitEncodeContent stripNewlines
  have hmem : ∀ c ∈ base64Encode (utf8Encode s), (!(c == '\n')) = true := by
    intro c hc
    rcases base64Encode_mem _ c hc with ⟨n, rfl⟩ | rfl
    · simpa using b64Char_ne_newline n
    · decide
  dsimp only
  rw [List.filter_eq_self.mpr hmem]
  rw [base64_bytes_roundtrip (utf8Encode s) (utf8EncodeList_lt_256 s.data)]
  dsimp only
  rw [show utf8Encode s = utf8EncodeList s.data from rfl, utf8Decode_encodeList]

end CodecTheorems

/-- Repository locator parsed once from the URL by `parseRepoInfo`:
owner, repository name, branch and file path (empty for a new file at the
repository root). -/
structure FileInfo where
  owner : String
  repo : String
  branch : String
  path : String

/-- Options of `commitFile`: commit message, raw content and an optional
prior blob SHA. -/
structure CommitOptions where
  message : String
  content : String
  sha : Option String

/-- JSON fields of a contents-API response that the client reads:
the blob `sha` and the base64 `content`, each possibly absent. -/
structure JsonData where
  sha : Option String
  content : Option String

/-- Abstract HTTP response: the `ok` flag (2xx), the status code, the
result of parsing the body as JSON (`Except.error` when `response.json()`
throws) and the raw body text. -/
structure HttpResponse where
  ok : Bool
  status : Nat
  json : Except String JsonData
  text : String

/-- Outcome of one `fetch` call: a thrown network exception with its
message, or a response. -/
inductive FetchOutcome where
  | exn : String → FetchOutcome
  | resp : HttpResponse → FetchOutcome

/-- Result record of `commitFile`. -/
structure CommitResult where
  success : Bool
  error : Option String

/-- JSON PUT body of `commitFile`; `sha = none` means the field is absent
from the serialized object. -/
structure CommitBody where
  message : String
  content : String
  branch : String
  sha : Option String

namespace GithubApi

/-- JS truthiness of an optional string: `undefined` and the empty string
are falsy. -/
def jsTruthy : Option String → Bool
  | none => false
  | some s => !(s == (""))

/-- URL used by `getFileSha` and `getFileContent` (GET with a ref query). -/
def getUrl (info : FileInfo) : String :=
  ("https://api.github.com/repos/") ++ info.owner ++ ("/") ++ info.repo ++
    ("/contents/") ++ info.path ++ ("?ref=") ++ info.branch

/-- URL used by the PUT in `commitFile`. -/
def putUrl (info : FileInfo) : String :=
  ("https://api.github.com/repos/") ++ info.owner ++ ("/") ++ info.repo ++
    ("/contents/") ++ info.path

/-- Model of `getFileSha` as a function of the fetch outcome: `null` on a
network exception, a non-2xx response, a JSON parse failure, or a missing
or empty `sha` field (`data.sha || null`); otherwise the SHA. -/
def getFileSha : FetchOutcome → Option String
  | FetchOutcome.exn _ => none
  | FetchOutcome.resp r =>
    if r.ok = false then none
    else
      match r.json with
      | Except.error _ => none
      | Except.ok d =>
        match d.sha with
        | some s => if s = ("") then none else some s
        | none => none

/-- SHA that `commitFile` puts in the body: the caller's `options.sha` when
truthy; otherwise, for a truthy path, the prefetched SHA with `null`
coerced to `undefined` (`(await getFileSha(info)) || undefined`). -/
def resolveSha (info : FileInfo) (optsSha : Option String)
    (shaFetch : FetchOutcome) : Option String :=
  if jsTruthy optsSha = false ∧ ¬(info.path = ("")) then
    match getFileSha shaFetch with
    | some s => if s = ("") then none else some s
    | none => none
  else optsSha

/-- JSON PUT body constructed by `commitFile`: message, base64-encoded
content and branch always; the `sha` field exactly when the resolved SHA
is truthy. -/
def commitFileBody (info : FileInfo) (opts : CommitOptions)
    (shaFetch : FetchOutcome) : CommitBody :=
  let sha := resolveSha info opts.sha shaFetch
  { message := opts.message
    content := Codec.commitEncodeContent opts.content
    branch := info.branch
    sha := if jsTruthy sha then sha else none }

/-- Serialized field list of the PUT body; the `sha` field is present
exactly when the body records one. -/
def bodyFields (b : CommitBody) : List (String × String) :=
  [(("message"), b.message), (("content"), b.content), (("branch"), b.branch)] ++
    (match b.sha with
     | some s => [(("sha"), s)]
     | none => [])

/-- Error string `commitFile` reports for a non-2xx response. -/
def httpError (status : Nat) (text : String) : String :=
  (("HTTP ")) ++ toString status ++ ((": ")) ++ text

/-- Model of `commitFile`'s result as a function of the PUT outcome:
an error record on a network exception, a non-2xx response, or a JSON
parse failure of the 2xx body; success otherwise. -/
def commitFileResult : FetchOutcome → CommitResult
  | FetchOutcome.exn e => { success := false, error := some e }
  | FetchOutcome.resp r =>
    if r.ok = false then
      { success := false, error := some (httpError r.status r.text) }
    else
      match r.json with
      | Except.error e => { success := false, error := some e }
      | Except.ok _ => { success := true, error := none }

/-- Model of `getFileContent` as a function of the fetch outcome: `null`
on a network exception, a non-2xx response, a JSON parse failure, a
missing or empty `content` field, or a decode error (a thrown `atob` or
`decodeURIComponent`); otherwise the decoded text. -/
def getFileContent : FetchOutcome → Option String
  | FetchOutcome.exn _ => none
  | FetchOutcome.resp r =>
    if r.ok = false then none
    else
      match r.json with
      | Except.error _ => none
      | Except.ok d =>
        match d.content with
        | none => none
        | some c =>
          if c = ("") then none
          else Codec.decodeBase64Utf8 c

/-- Request assembled by the cookie-based client for the PUT: captured
auth headers are merged over Accept and Content-Type, and cookies are sent
(`credentials: 'include'`). -/
structure ApiRequest where
  url : String
  method : String
  headers : List (String × String)
  withCredentials : Bool
  body : List (String × String)

/-- PUT request of the cookie-based `commitFile`, given the optional
captured Authorization header value. -/
def commitRequest (auth : Option String) (info : FileInfo)
    (opts : CommitOptions) (shaFetch : FetchOutcome) : ApiRequest :=
  { url := putUrl info
    method := ("PUT")
    headers :=
      [(("Accept"), ("application/vnd.github.v3+json")),
       (("Content-Type"), ("application/json"))] ++
        (match auth with
         | some a => [(("Authorization"), a)]
         | none => [])
    withCredentials := true
    body := bodyFields (commitFileBody info opts shaFetch) }

end GithubApi

namespace AltApi

/-- Model of `getFileSha` of the token-scraping client, transcribed from
its own source text (identical logic to the cookie-based one). -/
def getFileSha : FetchOutcome → Option String
  | FetchOutcome.exn _ => none
  | FetchOutcome.resp r =>
    if r.ok = false then none
    else
      match r.json with
      | Except.error _ => none
      | Except.ok d =>
        match d.sha with
        | some s => if s = ("") then none else some s
        | none => none

/-- SHA resolution of the token-scraping `commitFile`, transcribed from
its own source text. -/
def resolveSha (info : FileInfo) (optsSha : Option String)
    (shaFetch : FetchOutcome) : Option String :=
  if GithubApi.jsTruthy optsSha = false ∧ ¬(info.path = ("")) then
    match getFileSha shaFetch with
    | some s => if s = ("") then none else some s
    | none => none
  else optsSha

/-- JSON PUT body of the token-scraping `commitFile`, transcribed from its
own source text. -/
def commitFileBody (info : FileInfo) (opts : CommitOptions)
    (shaFetch : FetchOutcome) : CommitBody :=
  let sha := resolveSha info opts.sha shaFetch
  { message := opts.message
    content := Codec.commitEncodeContent opts.content
    branch := info.branch
    sha := if GithubApi.jsTruthy sha then sha else none }

/-- PUT URL of the token-scraping `commitFile`, transcribed from its own
source text. -/
def putUrl (info : FileInfo) : String :=
  ("https://api.github.com/repos/") ++ info.owner ++ ("/") ++ info.repo ++
    ("/contents/") ++ info.path

/-- PUT request of the token-scraping `commitFile`, given the optional
token scraped from storage: a Bearer Authorization header is added when a
token was found, and no credentials mode is set (cookies omitted). -/
def commitRequest (token : Option String) (info : FileInfo)
    (opts : CommitOptions) (shaFetch : FetchOutcome) : GithubApi.ApiRequest :=
  { url := putUrl info
    method := ("PUT")
    headers :=
      [(("Accept"), ("application/vnd.github.v3+json")),
       (("Content-Type"), ("application/json"))] ++
        (match token with
         | some t => [(("Authorization"), ("Bearer ") ++ t)]
         | none => [])
    withCredentials := false
    body := GithubApi.bodyFields (commitFileBody info opts shaFetch) }

end AltApi

section ApiTheorems

open GithubApi

theorem getFileSha_ne_empty (o : FetchOutcome) (s : String)
    (h : GithubApi.getFileSha o = some s) : ¬(s = ("")) := by
  cases o with
  | exn e => simp [GithubApi.getFileSha] at h
  | resp r =>
    unfold GithubApi.getFileSha at h
    repeat' split at h
    all_goals simp_all

/-- C1: for every repository locator, commit options and SHA-prefetch
outcome, the PUT body of `commitFile` contains the message, the
base64-encoded content and the branch; its `sha` field is set when the
caller supplied a non-empty prior SHA, and when no truthy SHA was supplied
but the path is non-empty and the prefetch succeeded; and when no prior
SHA was supplied and the prefetch failed (or the path is empty), the body
omits the `sha` field entirely. -/
theorem commitFile_put_body_spec (info : FileInfo) (opts : CommitOptions)
    (shaFetch : FetchOutcome) :
    ((("message"), opts.message) ∈ bodyFields (commitFileBody info opts shaFetch)) ∧
    ((("content"), Codec.commitEncodeContent opts.content) ∈
      bodyFields (commitFileBody info opts shaFetch)) ∧
    ((("branch"), info.branch) ∈ bodyFields (commitFileBody info opts shaFetch)) ∧
    (∀ s, opts.sha = some s → ¬(s = ("")) →
      (commitFileBody info opts shaFetch).sha = some s) ∧
    (jsTruthy opts.sha = false → ¬(info.path = ("")) →
      ∀ s, getFileSha shaFetch = some s →
        (commitFileBody info opts shaFetch).sha = some s) ∧
    (opts.sha = none → (info.path = ("") ∨ getFileSha shaFetch = none) →
      (commitFileBody info opts shaFetch).sha = none ∧
        ∀ s, ¬((("sha"), s) ∈ bodyFields (commitFileBody info opts shaFetch))) := by
  refine ⟨?_, ?_, ?_, ?_, ?_, ?_⟩
  · simp [bodyFields, commitFileBody]
  · simp [bodyFields, commitFileBody]
  · simp [bodyFields, commitFileBody]
  · intro s hs hne
    have hjs : jsTruthy (some s) = true := by simp [jsTruthy, hne]
    simp [commitFileBody, resolveSha, hs, hjs]
  · intro hjt hpath s hsha
    have hne := getFileSha_ne_empty shaFetch s hsha
    have hjs : jsTruthy (some s) = true := by simp [jsTruthy, hne]
    simp [commitFileBody, resolveSha, hjt, hpath, hsha, hne, hjs]
  · intro hnone hor
    have hjf : jsTruthy none = false := rfl
    have h1 : (commitFileBody info opts shaFetch).sha = none := by
      by_cases hp : info.path = ("")
      · simp [commitFileBody, resolveSha, hnone, hp, hjf]
      · rcases hor with hpe | hf
        · exact absurd hpe hp
        · simp [commitFileBody, resolveSha, hnone, hp, hf, hjf]
    refine ⟨h1, ?_⟩
    intro s
    simp [bodyFields, h1]

/-- C1 (witness): a commit of a new file at the repository root with no
prior SHA and a failing prefetch omits the `sha` field, while the message
field is present. -/
theorem commitFile_put_body_spec_witness :
    (commitFileBody ⟨("o"), ("r"), ("main"), ("")⟩
      ⟨("msg"), ("hi"), none⟩ (FetchOutcome.exn ("net"))).sha = none ∧
    ((("message"), ("msg")) ∈ bodyFields (commitFileBody
      ⟨("o"), ("r"), ("main"), ("")⟩ ⟨("msg"), ("hi"), none⟩
      (FetchOutcome.exn ("net")))) := by
  have h := commitFile_put_body_spec ⟨("o"), ("r"), ("main"), ("")⟩
    ⟨("msg"), ("hi"), none⟩ (FetchOutcome.exn ("net"))
  exact ⟨(h.2.2.2.2.2 rfl (Or.inl rfl)).1, h.1⟩

/-- C7: every HTTP-layer failure is handled locally, never raised: on a
non-2xx response or a network exception, `getFileSha` and `getFileContent`
return `null` and `commitFile` returns a failure record carrying an error
message; a missing `sha` or `content` field also yields `null`; and
`commitFile` reports success only for a 2xx response. All three models
are total functions of the fetch outcome, so no outcome escapes as an
exception. -/
theorem api_error_handling (o : FetchOutcome) :
    (∀ r, o = FetchOutcome.resp r → r.ok = false →
      getFileSha o = none ∧ getFileContent o = none ∧
      commitFileResult o =
        { success := false, error := some (httpError r.status r.text) }) ∧
    (∀ e, o = FetchOutcome.exn e →
      getFileSha o = none ∧ getFileContent o = none ∧
      commitFileResult o = { success := false, error := some e }) ∧
    (∀ r d, o = FetchOutcome.resp r → r.json = Except.ok d → d.sha = none →
      getFileSha o = none) ∧
    (∀ r d, o = FetchOutcome.resp r → r.json = Except.ok d → d.content = none →
      getFileContent o = none) ∧
    ((commitFileResult o).success = true →
      ∃ r, o = FetchOutcome.resp r ∧ r.ok = true) ∧
    ((commitFileResult o).success = false → ¬((commitFileResult o).error = none)) := by
  refine ⟨?_, ?_, ?_, ?_, ?_, ?_⟩
  · rintro r rfl hok
    refine ⟨?_, ?_, ?_⟩
    · simp [getFileSha, hok]
    · simp [getFileContent, hok]
    · simp [commitFileResult, hok]
  · rintro e rfl
    exact ⟨rfl, rfl, rfl⟩
  · rintro r d rfl hj hsha
    cases hok : r.ok with
    | false => simp [getFileSha, hok]
    | true => simp [getFileSha, hok, hj, hsha]
  · rintro r d rfl hj hc
    cases hok : r.ok with
    | false => simp [getFileContent, hok]
    | true => simp [getFileContent, hok, hj, hc]
  · intro hs
    cases o with
    | exn e => simp [commitFileResult] at hs
    | resp r =>
      refine ⟨r, rfl, ?_⟩
      by_contra hok
      simp only [Bool.not_eq_true] at hok
      simp [commitFileResult, hok] at hs
  · intro hs
    cases o with
    | exn e => simp [commitFileResult]
    | resp r =>
      unfold commitFileResult
      unfold commitFileResult at hs
      repeat' split
      all_goals simp_all

/-- C7 (witness): instantiating the error-handling claim at a concrete
network exception and at a concrete 404 response. -/
theorem api_error_handling_witness :
    (getFileSha (FetchOutcome.exn ("net down")) = none ∧
      getFileContent (FetchOutcome.exn ("net down")) = none ∧
      commitFileResult (FetchOutcome.exn ("net down")) =
        { success := false, error := some ("net down") }) ∧
    commitFileResult (FetchOutcome.resp
      { ok := false, status := 404, json := Except.error ("bad json"),
        text := ("Not Found") }) =
      { success := false, error := some ("HTTP 404: Not Found") } := by
  refine ⟨(api_error_handling (FetchOutcome.exn ("net down"))).2.1 ("net down") rfl, ?_⟩
  have h := (api_error_handling (FetchOutcome.resp
    { ok := false, status := 404, json := Except.error ("bad json"),
      text := ("Not Found") })).1
    { ok := false, status := 404, json := Except.error ("bad json"),
      text := ("Not Found") } rfl rfl
  exact h.2.2

/-- C9: the cookie-based client and the token-scraping client build, for
identical repository locator and commit options, the identical PUT URL,
method and JSON body; they differ only in the authentication headers and
the credentials mode of the request. -/
theorem api_impls_same_url_body (auth token : Option String) (info : FileInfo)
    (opts : CommitOptions) (shaFetch : FetchOutcome) :
    (GithubApi.commitRequest auth info opts shaFetch).url =
      (AltApi.commitRequest token info opts shaFetch).url ∧
    (GithubApi.commitRequest auth info opts shaFetch).method =
      (AltApi.commitRequest token info opts shaFetch).method ∧
    (GithubApi.commitRequest auth info opts shaFetch).body =
      (AltApi.commitRequest token info opts shaFetch).body :=
  ⟨rfl, rfl, rfl⟩

end ApiTheorems

namespace Injector

/-- DOM element as the injector manipulates it: its inline display style
and the `data-ghmonaco-hidden` marker attribute holding the saved display
value (`none` when the attribute is absent). -/
structure DomElem where
  display : String
  savedDisplay : Option String
  deriving DecidableEq

/-- Model of `hideElement`: the current inline display is saved into the
marker attribute, then the display is set to `none`. -/
def hideElement (e : DomElem) : DomElem :=
  { savedDisplay := some e.display, display := ("none") }

/-- Restoration step of `disposeMonacoEditor` for one element: an element
carrying the marker gets its display set to the saved value
(`getAttribute(HIDDEN_ATTR) || empty`) and the marker removed; an element
without the marker is untouched. -/
def restoreElem (e : DomElem) : DomElem :=
  match e.savedDisplay with
  | some v => { display := if v = ("") then ("") else v, savedDisplay := none }
  | none => e

/-- Module state of `monaco-injector.ts`: the current editor handle, the
disposables list, the page's elements, and whether the Monaco container
element is in the document. -/
structure InjectorState where
  currentEditor : Option Nat
  currentDisposables : List Nat
  elems : List DomElem
  containerPresent : Bool
  deriving DecidableEq

/-- Model of `disposeMonacoEditor`: dispose the editor and the
disposables, restore every element carrying the marker attribute, and
remove the Monaco container. -/
def disposeMonacoEditor (s : InjectorState) : InjectorState :=
  { currentEditor := none
    currentDisposables := []
    elems := s.elems.map restoreElem
    containerPresent := false }

theorem restoreElem_idem (e : DomElem) : restoreElem (restoreElem e) = restoreElem e := by
  rcases e with ⟨d, sd⟩
  cases sd <;> simp [restoreElem]

end Injector

section InjectorDisposeTheorems

open Injector

/-- C4: teardown restores saved display values and is idempotent: an
element whose display was saved when it was hidden gets exactly that saved
value back with the marker removed; hiding then restoring an unmarked
element is the identity; `disposeMonacoEditor` maps each element through
the restoration step; and running `disposeMonacoEditor` twice equals
running it once, so a second call makes no further change (and, being a
total function, it cannot throw). -/
theorem dispose_restores_saved_display (s : InjectorState) :
    (∀ e : DomElem, ∀ v, e.savedDisplay = some v →
      (restoreElem e).display = v ∧ (restoreElem e).savedDisplay = none) ∧
    (∀ e : DomElem, e.savedDisplay = none → restoreElem (hideElement e) = e) ∧
    (∀ i : Nat, (disposeMonacoEditor s).elems.get? i = (s.elems.get? i).map restoreElem) ∧
    disposeMonacoEditor (disposeMonacoEditor s) = disposeMonacoEditor s := by
  refine ⟨?_, ?_, ?_, ?_⟩
  · intro e v hv
    unfold restoreElem
    rw [hv]
    by_cases hv0 : v = ("") <;> simp [hv0]
  · intro e he
    unfold restoreElem hideElement
    by_cases hd : e.display = ("") <;> cases e <;> simp_all
  · intro i
    unfold disposeMonacoEditor
    exact List.get?_map restoreElem s.elems i
  · unfold disposeMonacoEditor
    simp only [List.map_map]
    congr 1
    apply List.map_congr_left
    intro e _
    exact restoreElem_idem e

/-- C4 (witness): a concrete hidden element gets its saved display
restored with the marker removed, and teardown of a concrete state is
idempotent. -/
theorem dispose_restores_saved_display_witness :
    (restoreElem { display := ("none"), savedDisplay := some ("block") }).display = ("block") ∧
    (restoreElem { display := ("none"), savedDisplay := some ("block") }).savedDisplay = none ∧
    disposeMonacoEditor (disposeMonacoEditor
      { currentEditor := some 0, currentDisposables := [1],
        elems := [{ display := ("none"), savedDisplay := some ("block") }],
        containerPresent := true }) =
      disposeMonacoEditor
        { currentEditor := some 0, currentDisposables := [1],
          elems := [{ display := ("none"), savedDisplay := some ("block") }],
          containerPresent := true } := by
  have h := dispose_restores_saved_display
    { currentEditor := some 0, currentDisposables := [1],
      elems := [{ display := ("none"), savedDisplay := some ("block") }],
      containerPresent := true }
  exact ⟨(h.1 _ ("block") rfl).1, (h.1 _ ("block") rfl).2, h.2.2.2⟩

end InjectorDisposeTheorems

namespace Injector

/-- Page-level state of the injection lifecycle: whether the marker
container with id `ghmonaco-editor-container` is in the document, the
current editor handle, the `initialized` flag of the content script, the
cached baseline content, and counters of created and live editors. -/
structure PageState where
  containerExists : Bool
  currentEditor : Option Nat
  initialized : Bool
  originalContent : String
  editorsCreated : Nat
  aliveEditors : Nat
  deriving DecidableEq

/-- Environment of one injection attempt: whether `detectGitHubEditor`
found the elements, whether `parseRepoInfo` succeeded, and what
`getFileContent` returned. -/
structure InjectEnv where
  detected : Bool
  parseOk : Bool
  fetched : Option String

/-- Model of `injectMonacoEditor`: when the container element already
exists, return the current editor handle without touching anything; when
the repository info cannot be parsed, return null; otherwise insert the
container, create one editor, and reset the baseline to the fetched
content, or to the empty string when the fetch returned null. -/
def injectMonacoEditor (s : PageState) (env : InjectEnv) : PageState × Option Nat :=
  if s.containerExists then (s, s.currentEditor)
  else if env.parseOk = false then (s, none)
  else
    ({ s with
        containerExists := true
        currentEditor := some s.editorsCreated
        editorsCreated := s.editorsCreated + 1
        aliveEditors := s.aliveEditors + 1
        originalContent :=
          match env.fetched with
          | some c => c
          | none => ("") },
      some s.editorsCreated)

/-- Model of `tryInjectEditor`: inert while `initialized` is set; else,
when the editor elements are detected, run the injection and set
`initialized` when it returned an editor. -/
def tryInjectEditor (s : PageState) (env : InjectEnv) : PageState :=
  if s.initialized then s
  else if env.detected = false then s
  else
    let r := injectMonacoEditor s env
    match r.2 with
    | some _ => { r.1 with initialized := true }
    | none => r.1

/-- Model of `cleanup` on navigation away: inert unless `initialized`;
otherwise disposes the editor, removes the container and clears the
flag. -/
def cleanup (s : PageState) : PageState :=
  if s.initialized = false then s
  else
    { s with
        containerExists := false
        currentEditor := none
        aliveEditors := 0
        initialized := false }

/-- Initial page state of the content script. -/
def pageStart : PageState :=
  { containerExists := false, currentEditor := none, initialized := false,
    originalContent := (""), editorsCreated := 0, aliveEditors := 0 }

/-- Transitions of the lifecycle: an injection attempt (from the initial
run, the mutation observer, turbo loads or popstate) or a cleanup. -/
inductive PageStep : PageState → PageState → Prop
  | inject (s : PageState) (env : InjectEnv) : PageStep s (tryInjectEditor s env)
  | navAway (s : PageState) : PageStep s (cleanup s)

/-- States reachable from the initial state by lifecycle transitions. -/
inductive Reachable : PageState → Prop
  | start : Reachable pageStart
  | step (s s2 : PageState) : Reachable s → PageStep s s2 → Reachable s2

/-- Invariant backing the at-most-one-editor property. -/
def editorInvariant (s : PageState) : Prop :=
  s.aliveEditors ≤ 1 ∧ (s.containerExists = false → s.aliveEditors = 0)

theorem pageStep_preserves (s s2 : PageState) (hstep : PageStep s s2)
    (ih : editorInvariant s) : editorInvariant s2 := by
  obtain ⟨ih1, ih2⟩ := ih
  cases hstep with
  | inject env =>
    unfold tryInjectEditor
    by_cases hi : s.initialized = true
    · simp only [hi, if_true]
      exact ⟨ih1, ih2⟩
    · simp only [Bool.not_eq_true] at hi
      simp only [hi, Bool.false_eq_true, if_false]
      by_cases hd : env.detected = false
      · simp only [hd, if_true]
        exact ⟨ih1, ih2⟩
      · simp only [hd, if_false]
        unfold injectMonacoEditor
        by_cases hc : s.containerExists = true
        · simp only [hc, if_true]
          cases s.currentEditor <;>
            exact ⟨ih1, fun hfalse => absurd hfalse (by simp [hc])⟩
        · simp only [Bool.not_eq_true] at hc
          simp only [hc, Bool.false_eq_true, if_false]
          have h0 : s.aliveEditors = 0 := ih2 hc
          by_cases hp : env.parseOk = false
          · simp only [hp, if_true]
            exact ⟨ih1, ih2⟩
          · simp only [hp, Bool.false_eq_true, if_false]
            refine ⟨by simp [h0], by simp⟩
  | navAway =>
    unfold cleanup
    by_cases hi : s.initialized = false
    · simp only [hi, if_true]
      exact ⟨ih1, ih2⟩
    · simp only [hi, Bool.false_eq_true, if_false]
      exact ⟨by simp, by simp⟩

theorem editorInvariant_reachable (s : PageState) (h : Reachable s) :
    editorInvariant s := by
  induction h with
  | start => exact ⟨by simp [pageStart], fun _ => by simp [pageStart]⟩
  | step s s2 hr hstep ih => exact pageStep_preserves s s2 hstep ih

end Injector

section InjectorLifecycleTheorems

open Injector

/-- C5: at most one Monaco editor exists per page: in every reachable
state, when the marker container already exists `injectMonacoEditor`
creates nothing and returns the current editor handle with the state
unchanged; while the `initialized` flag is set `tryInjectEditor` is inert;
and the number of live editors never exceeds one. -/
theorem editor_singleton (s : PageState) (env : InjectEnv) (hr : Reachable s) :
    (s.containerExists = true → injectMonacoEditor s env = (s, s.currentEditor)) ∧
    (s.initialized = true → tryInjectEditor s env = s) ∧
    s.aliveEditors ≤ 1 := by
  refine ⟨?_, ?_, (editorInvariant_reachable s hr).1⟩
  · intro hc
    unfold injectMonacoEditor
    simp [hc]
  · intro hi
    unfold tryInjectEditor
    simp [hi]

/-- C5 (witness): after one successful injection from the initial state,
the container exists and a second injection attempt returns the same
state; the live-editor count is at most one. -/
theorem editor_singleton_witness :
    (injectMonacoEditor (tryInjectEditor pageStart ⟨true, true, some ("x")⟩)
        ⟨true, true, some ("x")⟩ =
      (tryInjectEditor pageStart ⟨true, true, some ("x")⟩,
        (tryInjectEditor pageStart ⟨true, true, some ("x")⟩).currentEditor)) ∧
    tryInjectEditor (tryInjectEditor pageStart ⟨true, true, some ("x")⟩)
        ⟨true, true, some ("x")⟩ =
      tryInjectEditor pageStart ⟨true, true, some ("x")⟩ ∧
    (tryInjectEditor pageStart ⟨true, true, some ("x")⟩).aliveEditors ≤ 1 := by
  have hr : Reachable (tryInjectEditor pageStart ⟨true, true, some ("x")⟩) :=
    Reachable.step _ _ Reachable.start (PageStep.inject _ _)
  have h := editor_singleton (tryInjectEditor pageStart ⟨true, true, some ("x")⟩)
    ⟨true, true, some ("x")⟩ hr
  exact ⟨h.1 rfl, h.2.1 rfl, h.2.2⟩

/-- Model of the `enableCommitButton` closure: when the primary button is
found and its text contains `commit`, its disabled state is set exactly
when the current editor text equals the baseline; otherwise nothing
changes. -/
def enableCommitButton (present textHasCommit disabled0 : Bool)
    (current original : String) : Bool :=
  if present && textHasCommit then current == original else disabled0

/-- C6: the baseline is reset on every injection load: to the fetched
content exactly when the fetch succeeded, and to the empty string when it
returned null; and the commit-button logic disables the button exactly
when the current editor text equals that baseline. -/
theorem baseline_reset_and_diff (s : PageState) (env : InjectEnv)
    (cur : String) (hc : s.containerExists = false) (hp : env.parseOk = true) :
    (∀ c, env.fetched = some c →
      (injectMonacoEditor s env).1.originalContent = c) ∧
    (env.fetched = none → (injectMonacoEditor s env).1.originalContent = ("")) ∧
    (∀ d : Bool, enableCommitButton true true d cur
        (injectMonacoEditor s env).1.originalContent = true ↔
      cur = (injectMonacoEditor s env).1.originalContent) := by
  refine ⟨?_, ?_, ?_⟩
  · intro c hf
    unfold injectMonacoEditor
    simp [hc, hp, hf]
  · intro hf
    unfold injectMonacoEditor
    simp [hc, hp, hf]
  · intro d
    unfold enableCommitButton
    simp

/-- C6 (witness): a fetch returning concrete content resets the baseline
to it, a null fetch resets it to the empty string, and the button is
disabled exactly on equal content. -/
theorem baseline_reset_and_diff_witness :
    (injectMonacoEditor pageStart ⟨true, true, some ("abc")⟩).1.originalContent = ("abc") ∧
    (injectMonacoEditor pageStart ⟨true, true, none⟩).1.originalContent = ("") ∧
    enableCommitButton true true false ("abc")
      (injectMonacoEditor pageStart ⟨true, true, some ("abc")⟩).1.originalContent = true := by
  have h1 := baseline_reset_and_diff pageStart ⟨true, true, some ("abc")⟩ ("abc") rfl rfl
  have h2 := baseline_reset_and_diff pageStart ⟨true, true, none⟩ ("") rfl rfl
  refine ⟨h1.1 ("abc") rfl, h2.2.1 rfl, ?_⟩
  exact (h1.2.2 false).mpr (h1.1 ("abc") rfl).symm

end InjectorLifecycleTheorems

namespace Hijack

/-- Attempt cap of the commit-button polling loop (`maxAttempts` in
`hijackCommitButton`). -/
def maxAttempts : Nat := 50

/-- Milliseconds between attempts (the `setTimeout` delay of `tryFind`). -/
def retryDelayMs : Nat := 200

/-- Model of the `tryFind` loop, driven by an oracle `found` telling
whether `findAndHijack` succeeds at the k-th attempt: the counter is
incremented, the attempt runs, and on failure the loop reschedules only
while the counter is below `maxAttempts`. The value is the total number of
attempts executed; the fuel argument is the remaining allowance and is
spent one unit per attempt. -/
def tryFindCount (found : Nat → Bool) : Nat → Nat → Nat
  | attempts, 0 => attempts
  | attempts, fuel + 1 =>
    if found (attempts + 1) then attempts + 1
    else if attempts + 1 < maxAttempts then tryFindCount found (attempts + 1) fuel
    else attempts + 1

/-- Total attempts of the polling loop as started by `hijackCommitButton`
(counter 0, full allowance). -/
def attemptsMade (found : Nat → Bool) : Nat :=
  tryFindCount found 0 maxAttempts

theorem tryFindCount_le (found : Nat → Bool) :
    ∀ fuel attempts : Nat, tryFindCount found attempts fuel ≤ attempts + fuel := by
  intro fuel
  induction fuel with
  | zero => intro attempts; simp [tryFindCount]
  | succ f ih =>
    intro attempts
    unfold tryFindCount
    by_cases h1 : found (attempts + 1) = true
    · simp only [h1, if_true]
      omega
    · simp only [h1, Bool.false_eq_true, if_false]
      by_cases h2 : attempts + 1 < maxAttempts
      · simp only [h2, if_true]
        have := ih (attempts + 1)
        omega
      · simp only [h2, if_false]
        omega

theorem tryFindCount_hit (found : Nat → Bool) :
    ∀ fuel attempts k : Nat, attempts < k → k ≤ attempts + fuel → k ≤ maxAttempts →
      found k = true → (∀ j, attempts < j → j < k → found j = false) →
      tryFindCount found attempts fuel = k := by
  intro fuel
  induction fuel with
  | zero =>
    intro attempts k h1 h2 h3 h4 h5
    omega
  | succ f ih =>
    intro attempts k h1 h2 h3 h4 h5
    unfold tryFindCount
    by_cases he : k = attempts + 1
    · rw [← he, h4]
      simp
    · have hf : found (attempts + 1) = false := h5 (attempts + 1) (by omega) (by omega)
      simp only [hf, Bool.false_eq_true, if_false]
      rw [if_pos (by omega)]
      exact ih (attempts + 1) k (by omega) (by omega) h3 h4
        (fun j hj1 hj2 => h5 j (by omega) hj2)

theorem tryFindCount_exhaust (found : Nat → Bool) :
    ∀ fuel attempts : Nat, attempts + fuel = maxAttempts → 1 ≤ fuel →
      (∀ j, attempts < j → j ≤ maxAttempts → found j = false) →
      tryFindCount found attempts fuel = maxAttempts := by
  intro fuel
  induction fuel with
  | zero =>
    intro attempts h1 h2 h3
    omega
  | succ f ih =>
    intro attempts h1 h2 h3
    unfold tryFindCount
    have hf : found (attempts + 1) = false := h3 (attempts + 1) (by omega) (by omega)
    simp only [hf, Bool.false_eq_true, if_false]
    by_cases hf0 : f = 0
    · subst hf0
      rw [if_neg (by omega)]
      omega
    · rw [if_pos (by omega)]
      exact ih (attempts + 1) (by omega) (by omega)
        (fun j hj1 hj2 => h3 j (by omega) hj2)

end Hijack

section HijackTheorems

open Hijack

/-- C8: the commit-button discovery loop is bounded: its attempt cap is
the constant 50 and its retry delay the constant 200 ms; it executes at
most 50 attempts; when the hijack first succeeds at attempt k within the
cap, exactly k attempts run (the loop stops on success); and when all 50
attempts fail, exactly 50 attempts run and no further retry is
scheduled. -/
theorem commit_button_poll_bounded (found : Nat → Bool) :
    maxAttempts = 50 ∧ retryDelayMs = 200 ∧
    attemptsMade found ≤ maxAttempts ∧
    (∀ k, 1 ≤ k → k ≤ maxAttempts → found k = true →
      (∀ j, 1 ≤ j → j < k → found j = false) → attemptsMade found = k) ∧
    ((∀ k, 1 ≤ k → k ≤ maxAttempts → found k = false) →
      attemptsMade found = maxAttempts) := by
  refine ⟨rfl, rfl, ?_, ?_, ?_⟩
  · have := tryFindCount_le found maxAttempts 0
    unfold attemptsMade
    omega
  · intro k hk1 hk2 hk3 hk4
    exact tryFindCount_hit found maxAttempts 0 k (by omega) (by omega) hk2 hk3
      (fun j hj1 hj2 => hk4 j (by omega) hj2)
  · intro hall
    exact tryFindCount_exhaust found maxAttempts 0 (by omega) (by simp [maxAttempts])
      (fun j hj1 hj2 => hall j (by omega) hj2)

/-- C8 (witness): when the button is found at the third attempt the loop
runs exactly three attempts, and when it is never found the loop runs
exactly the 50-attempt cap. -/
theorem commit_button_poll_bounded_witness :
    attemptsMade (fun k => k == 3) = 3 ∧
    attemptsMade (fun _ => false) = maxAttempts := by
  constructor
  · exact (commit_button_poll_bounded (fun k => k == 3)).2.2.2.1 3 (by decide)
      (by decide) (by decide) (by decide)
  · exact (commit_button_poll_bounded (fun _ => false)).2.2.2.2
      (fun k h1 h2 => rfl)

end HijackTheorems
